import Mathlib

/-!
Verification of the Falcon protocol implementation
(`src/sympc/protocol/falcon/falcon.py` of the SyMPC repository).

The development shallowly embeds the computations of the Falcon class.
Ring-valued tensors are modelled elementwise over `ZMod n` (the code
reduces every share operation modulo the ring size via
`ReplicatedSharedTensor.shares_sum` and the ring operators), and the
unsigned-integer numpy arrays used by the wrap machinery are modelled
over `ℕ` with explicit `% N` reductions, `N` being the ring size.

The replicated-share machinery (`ReplicatedSharedTensor`, `Session`,
`MPCTensor`) lives outside this repository; where its behaviour is
needed it is modelled from the specification, marked by a doc comment
starting with `Modelled from the spec:`.  Protocols that only combine
shares through the linear homomorphic share arithmetic are stated at
the level of the values the shares reconstruct to.
-/

namespace Falcon

/-- Modelled from the spec: a `ReplicatedSharedTensor` held by one party is a
pair of two of the three generated share components (elementwise view, one
ring element per slot).  `sh0` is `shares[0]`, `sh1` is `shares[1]`. -/
structure RST (n : ℕ) where
  sh0 : ZMod n
  sh1 : ZMod n
  deriving DecidableEq

/-- Modelled from the spec: `distribute_shares` gives party `i` the component
pair `(s_i, s_{i+1 mod 3})` of the three generated components summing to the
plaintext mod ring. -/
def partyShares {n : ℕ} (s0 s1 s2 : ZMod n) : Fin 3 → RST n
  | 0 => ⟨s0, s1⟩
  | 1 => ⟨s1, s2⟩
  | 2 => ⟨s2, s0⟩

/-- Embedding of `Falcon.multiplication_protocol` (falcon.py lines 404-432):
the local cross-product sum
`op(x.shares[0],y.shares[0]) + op(x.shares[1],y.shares[0]) + op(x.shares[0],y.shares[1])`
reduced mod the ring (`shares_sum`).  The ring operator retrieved by
`ReplicatedSharedTensor.get_op` is abstracted as `op`. -/
def multiplication_protocol {n : ℕ} (op : ZMod n → ZMod n → ZMod n) (x y : RST n) : ZMod n :=
  op x.sh0 y.sh0 + op x.sh1 y.sh0 + op x.sh0 y.sh1

/-- Embedding of `Falcon.compute_zvalue_and_add_mask` (falcon.py lines 368-402):
the local z value plus the party's pairwise-zero-sharing mask, added with the
ring `add` operator. -/
def compute_zvalue_and_add_mask {n : ℕ} (op : ZMod n → ZMod n → ZMod n)
    (x y : RST n) (przsMask : ZMod n) : ZMod n :=
  multiplication_protocol op x y + przsMask

/-- Embedding of `Falcon.triple_verification` (falcon.py lines 196-263) for one
party of the given rank, with elementwise ring multiplication as the operator:
`rst_share = c_share + delta_a + eps_b`, where
`delta_a.shares[i] = a.shares[i] * delta` and `eps_b.shares[i] = eps * b.shares[i]`;
rank 0 adds `eps*delta` into `rst_share.shares[0]`, rank 2 adds it into
`rst_share.shares[1]`; the result is `z_sh - rst_share`. -/
def triple_verification {n : ℕ} (rank : Fin 3) (z_sh a_sh b_sh c_sh : RST n)
    (eps delta : ZMod n) : RST n :=
  let eps_delta := eps * delta
  let r0 := c_sh.sh0 + a_sh.sh0 * delta + eps * b_sh.sh0
  let r1 := c_sh.sh1 + a_sh.sh1 * delta + eps * b_sh.sh1
  let t0 := if rank = 0 then r0 + eps_delta else r0
  let t1 := if rank = 2 then r1 + eps_delta else r1
  ⟨z_sh.sh0 - t0, z_sh.sh1 - t1⟩

/-- Modelled from the spec: reconstruction of a 2-out-of-3 replicated sharing
sums the three distinct components mod ring; with the `partyShares` layout,
component `j` is party `j`'s first slot. -/
def reconstruct3 {n : ℕ} (t : Fin 3 → RST n) : ZMod n :=
  (t 0).sh0 + (t 1).sh0 + (t 2).sh0

/-- The per-rank residual family produced by the verification step of
`Falcon.mul_malicious` (falcon.py lines 352-359): every rank runs
`triple_verification` on its shares of `z`, of the Beaver triple and the public
`eps`, `delta`. -/
def triple_verification_all {n : ℕ} (z0 z1 z2 a0 a1 a2 b0 b1 b2 c0 c1 c2 eps delta : ZMod n) :
    Fin 3 → RST n :=
  fun r =>
    triple_verification r (partyShares z0 z1 z2 r) (partyShares a0 a1 a2 r)
      (partyShares b0 b1 b2 r) (partyShares c0 c1 c2 r) eps delta

/-- Embedding of the final gate of `Falcon.mul_malicious` (falcon.py lines
357-366): the verification residual is reconstructed; the result of the
semi-honest multiplication is returned only if every element of the
reconstructed residual equals zero, otherwise a `ValueError` aborts the call
and nothing is returned. -/
def mul_malicious_check {n : ℕ} {α : Type} (residual : List (ZMod n)) (result : α) :
    Except String α :=
  if residual.all (fun v => v = 0) then Except.ok result
  else Except.error "Computation Aborted: Malicious behavior."

/-- Embedding of `Falcon.select_shares` (falcon.py lines 434-481), elementwise.
The selector tensor `b` carries its ring size and optional shape; its
reconstructed bit is `b`, the sampled random ring-2 bit is `c` (its exact lift
into the working ring by `ABY3.bit_injection` is the 0/1 ring element `cr`).
The opened mask is `b ^ c`; the code computes
`d = (mask - c_r * mask) + c_r * (mask ^ 1)` and returns `x + d * (y - x)`. -/
def select_shares {n : ℕ} (x y : ZMod n) (bRingSize : ℕ) (bShape : Option (List ℕ))
    (b c : Bool) : Except String (ZMod n) :=
  if bRingSize ≠ 2 then
    Except.error ("Invalid " ++ toString bRingSize ++ " for selector bit,must be of ring size 2")
  else if bShape = none then
    Except.error "The selector bit tensor must have a valid shape."
  else
    let cr : ZMod n := if c then 1 else 0
    let mask : Bool := Bool.xor b c
    let maskr : ZMod n := if mask then 1 else 0
    let maskx1 : ZMod n := if mask then 0 else 1
    let d : ZMod n := (maskr - cr * maskr) + cr * maskx1
    Except.ok (x + d * (y - x))

/-- Error raised by the primitive store, mirroring
`sympc.store.exceptions.EmptyPrimitiveStore`; any other exception is `other`. -/
inductive PrimErr
  | emptyPrimitiveStore
  | other (msg : String)
  deriving DecidableEq

/-- Embedding of the masking step of `Falcon.mul_malicious` (falcon.py lines
325-343).  `attempt i` is the outcome of running `Falcon.falcon_mask` at every
party after `i` batch regenerations by
`CryptoPrimitiveProvider.generate_primitives`.  The code tries the mask step
once; only an `EmptyPrimitiveStore` failure triggers one batch regeneration
followed by exactly one unguarded retry.  The second component counts the
regenerations performed. -/
def mul_malicious_masking {α : Type} (attempt : ℕ → Except PrimErr α) :
    Except PrimErr α × ℕ :=
  match attempt 0 with
  | Except.ok v => (Except.ok v, 0)
  | Except.error PrimErr.emptyPrimitiveStore => (attempt 1, 1)
  | Except.error e => (Except.error e, 0)

/-- Fixed-point encoder configuration of a share (`Config.encoder_base`,
`Config.encoder_precision`). -/
structure ShareConfig where
  encoder_base : ℤ
  encoder_precision : ℕ
  deriving DecidableEq

/-- Embedding of the configuration frame of `Falcon.division` (falcon.py lines
823-916).  The code sets `set_config(1, 0)` on both operands' shares (lines
861-863), runs the arithmetic core (lines 865-910, abstracted as the fallible
`body`, since every multiply and truncate there delegates to external MPC
machinery and may raise), and runs `set_config(base, precision)` only on the
straight-line path (lines 912-914); there is no try/finally.  The result pairs
the outcome with the final configuration of the operands' shares. -/
def division_configFrame {γ : Type} (orig : ShareConfig)
    (body : ShareConfig → Except String γ) : Except String γ × ShareConfig :=
  let forced : ShareConfig := ⟨1, 0⟩
  match body forced with
  | Except.ok v => (Except.ok v, orig)
  | Except.error e => (Except.error e, forced)

/-- Dtype kind of a numpy array: the code only distinguishes signed-integer
kind (`dtype.kind == "i"`) from everything else, and reads
`np.iinfo(dtype).max` for the carry formula. -/
inductive NpKind
  | signedInt
  | unsignedInt
  | boolKind
  | otherKind
  deriving DecidableEq

/-- A numpy ndarray, elementwise: dtype kind, `np.iinfo(dtype).max`, and data
(unsigned values, each at most `maxVal`). -/
structure NDArray where
  kind : NpKind
  maxVal : ℕ
  data : List ℕ
  deriving DecidableEq

/-- A Python value passed to `wrap2`/`wrap3`: a numpy ndarray or anything
else. -/
inductive PyVal
  | arr (a : NDArray)
  | notArray
  deriving DecidableEq

/-- Elementwise carry of `wrap2`: `a > max_val - b` (numpy unsigned
arithmetic; `b ≤ max_val` for well-formed unsigned data). -/
def wrap2_elem (maxVal x y : ℕ) : Bool := decide (maxVal - y < x)

/-- Embedding of `Falcon.wrap2` (falcon.py lines 572-597): a `ValueError` if
`a` or `b` is not an ndarray, a `ValueError` if either dtype has
signed-integer kind, otherwise the elementwise carry `a > max_val - b`. -/
def wrap2 (av bv : PyVal) : Except String (List Bool) :=
  match av, bv with
  | PyVal.arr a, PyVal.arr b =>
    if a.kind = NpKind.signedInt ∨ b.kind = NpKind.signedInt then
      Except.error "Wrap2 works only for signed numbers."
    else
      Except.ok (List.zipWith (fun x y => wrap2_elem a.maxVal x y) a.data b.data)
  | _, _ => Except.error "Input value must be a numpy array for wrap2."

/-- Elementwise unsigned addition `a + b` of two ndarrays of the same dtype
(numpy wraps modulo `max_val + 1`). -/
def ndAdd (a b : NDArray) : NDArray :=
  ⟨a.kind, a.maxVal, List.zipWith (fun x y => (x + y) % (a.maxVal + 1)) a.data b.data⟩

/-- Embedding of `Falcon.wrap3` (falcon.py lines 599-623): the isinstance
check covers only `a` and `b`; the dtype check reads `c.dtype` as well (an
`AttributeError` if `c` is not an ndarray); the result is
`wrap2(a, b) ^ wrap2(a + b, c)`. -/
def wrap3 (av bv cv : PyVal) : Except String (List Bool) :=
  match av, bv with
  | PyVal.arr a, PyVal.arr b =>
    match cv with
    | PyVal.notArray => Except.error "AttributeError: dtype"
    | PyVal.arr c =>
      if a.kind = NpKind.signedInt ∨ b.kind = NpKind.signedInt ∨ c.kind = NpKind.signedInt then
        Except.error "Wrap3 works only for signed numbers."
      else do
        let u ← wrap2 (PyVal.arr a) (PyVal.arr b)
        let v ← wrap2 (PyVal.arr (ndAdd a b)) (PyVal.arr c)
        pure (List.zipWith Bool.xor u v)
  | _, _ => Except.error "Input value must be a numpy array for wrap3."

/-- Scalar carry of `Falcon.wrap2` on one pair of unsigned ring elements
(values below the ring size `N`, `max_val = N - 1`): `a > max_val - b`. -/
def wrap2c (N a b : ℕ) : Bool := decide (N - 1 - b < a)

/-- Scalar form of `Falcon.wrap3` on unsigned ring elements:
`wrap2(a, b) ^ wrap2(a + b, c)`, the inner sum wrapping mod `N`. -/
def wrap3c (N a b c : ℕ) : Bool := Bool.xor (wrap2c N a b) (wrap2c N ((a + b) % N) c)

/-- Bit `i` of the public integer `r`: the code's `r >> i & 1`
(falcon.py line 558). -/
def rBit (r i : ℕ) : ℕ := r / 2 ^ i % 2

/-- Embedding of `w[i] = x[i] ^ r_i` (falcon.py line 560): XOR of a 0/1
prime-field share with a public bit is the arithmetic `a + b - 2*a*b` in
`Z_p` (the generic MPC xor of the share arithmetic). -/
def pcW (p : ℕ) (xi : ZMod p) (ri : ℕ) : ZMod p :=
  xi + (ri : ZMod p) - 2 * xi * (ri : ZMod p)

/-- Embedding of `u[i] = (1 - 2*beta_p) * (x[i] - r_i)` (falcon.py line 559),
`beta_p` being the prime-field lift of the sampled bit. -/
def pcU (p : ℕ) (betaP xi : ZMod p) (ri : ℕ) : ZMod p :=
  (1 - 2 * betaP) * (xi - (ri : ZMod p))

/-- Embedding of `c[i] = u[i] + 1 + sum(w[i+1:])` (falcon.py line 561): the
slice `w[i+1:]` collects the list indices above `i`. -/
def pcC (p : ℕ) (xs : List (ZMod p)) (r : ℕ) (betaP : ZMod p) (i : ℕ) : ZMod p :=
  pcU p betaP (xs.getD i 0) (rBit r i) + 1 +
    ∑ j in Finset.Ico (i + 1) xs.length, pcW p (xs.getD j 0) (rBit r j)

/-- Embedding of `d = m * math.prod(c)` (falcon.py line 563). -/
def pcD (p : ℕ) (xs : List (ZMod p)) (r : ℕ) (betaP m : ZMod p) : ZMod p :=
  m * ∏ i in Finset.range xs.length, pcC p xs r betaP i

/-- Embedding of `Falcon.private_compare` (falcon.py lines 520-570) at the
level of reconstructed values: `xs` holds the per-bit prime-field plaintexts
of `x`, `r` the public integer, `beta` the sampled random bit, `m` the nonzero
blinding factor.  The opened `d` is mapped to the bit `beta_prime = (d != 0)`
and the returned ring-2 sharing reconstructs to `beta ^ beta_prime`. -/
def private_compare (p : ℕ) (xs : List (ZMod p)) (r : ℕ) (beta : Bool) (m : ZMod p) : Bool :=
  Bool.xor beta (decide (pcD p xs r (if beta then 1 else 0) m ≠ 0))

/-- Per-bit prime-field sharing of `x` on `k` bits, bit `i` of `x` at list
index `i` (least-significant bit first).  The pairing of `x[i]` with
`r >> i & 1` inside `private_compare` makes list index `i` stand for bit
significance `i`. -/
def bitsL (p k x : ℕ) : List (ZMod p) :=
  (List.range k).map (fun i => if x.testBit i then 1 else 0)

/-- Number of positions strictly above `i` and below `k` where the bits of
`x` and `r` disagree: the plaintext value of `sum(w[i+1:])`. -/
def wBitCount (x r i k : ℕ) : ℕ :=
  ∑ j in Finset.Ico (i + 1) k, (if x.testBit j = r.testBit j then 0 else 1)

/-- One r-component of `r = x + a`: the parties add shares mod `N`
(falcon.py line 697). -/
def rComp (N xi ai : ℕ) : ℕ := (xi + ai) % N

/-- Modelled from the spec: `wrap_rst` is each party's local wrap correction;
its reconstructed ring-2 value is the XOR of the per-component carries of
`x_i + a_i`. -/
def wrap_rst_beta (N a1 a2 a3 x1 x2 x3 : ℕ) : Bool :=
  Bool.xor (wrap2c N a1 x1) (Bool.xor (wrap2c N a2 x2) (wrap2c N a3 x3))

/-- Embedding of `Falcon.wrap` (falcon.py lines 683-719) at the level of
reconstructed values, for a tensor with raw components `a1 a2 a3 < N` and the
preprocessing randomness `x` with components `x1 x2 x3 < N` (sampled by
`wrap_preprocess`, falcon.py lines 625-681): `r = x + a` componentwise,
`beta` is the reconstructed local-carry sharing, `delta = wrap3(r1, r2, r3)`
on the opened components, `alpha` reconstructs to `wrap3(x1, x2, x3)`
(the fresh boolean blinding of the preprocessing cancels on reconstruction),
`eta` is `private_compare` on the prime-lifted bits of `x` against the opened
`r_public + 1` (numpy unsigned sums, wrapping mod `N`), and the result
reconstructs to `beta ^ delta ^ eta ^ alpha` (ring-2 addition and subtraction
are both XOR).  `betaPC` and `m` are the randomness consumed by
`private_compare`. -/
def wrap (N p k a1 a2 a3 x1 x2 x3 : ℕ) (betaPC : Bool) (m : ZMod p) : Bool :=
  let r1 := rComp N x1 a1
  let r2 := rComp N x2 a2
  let r3 := rComp N x3 a3
  let beta := wrap_rst_beta N a1 a2 a3 x1 x2 x3
  let delta := wrap3c N r1 r2 r3
  let rPub := (r1 + r2 + r3) % N
  let xv := (x1 + x2 + x3) % N
  let eta := private_compare p (bitsL p k xv) ((rPub + 1) % N) betaPC m
  let alpha := wrap3c N x1 x2 x3
  Bool.xor beta (Bool.xor delta (Bool.xor eta alpha))

/-- Embedding of `Falcon.drelu` (falcon.py lines 721-757) at the level of
reconstructed values, for ring size `N = 2^k`: each party extracts the most
significant bit of its share components (`bit_extraction(msb_idx)`, the
reconstructed ring-2 value being the XOR of the component bits), shifts its
components left by one (`share << 1`, i.e. `2 * a_i mod N`), runs `wrap` on
the shifted tensor with preprocessing randomness `x1 x2 x3` and comparison
randomness `betaPC`, `m`, and returns `msb ^ wrap ^ 1`. -/
def drelu (N p k a1 a2 a3 x1 x2 x3 : ℕ) (betaPC : Bool) (m : ZMod p) : Bool :=
  let msb := Bool.xor (a1.testBit (k - 1)) (Bool.xor (a2.testBit (k - 1)) (a3.testBit (k - 1)))
  let w := wrap N p k (2 * a1 % N) (2 * a2 % N) (2 * a3 % N) x1 x2 x3 betaPC m
  Bool.xor (Bool.xor msb w) true

/-- Length of the per-bit sharing. -/
lemma bitsL_length (p k x : ℕ) : (bitsL p k x).length = k := by
  simp [bitsL]

/-- Entry `j` of the per-bit sharing is the 0/1 lift of bit `j` of `x`. -/
lemma bitsL_getD {k j : ℕ} (p x : ℕ) (hj : j < k) :
    (bitsL p k x).getD j 0 = if x.testBit j then 1 else 0 := by
  simp [bitsL, List.getD_eq_getElem?_getD, List.getElem?_map, List.getElem?_range hj]

/-- The code's `r >> i & 1` is the 0/1 value of `testBit`. -/
lemma rBit_eq (r i : ℕ) : rBit r i = if r.testBit i then 1 else 0 := by
  have h2 : r / 2 ^ i % 2 = 0 ∨ r / 2 ^ i % 2 = 1 := by omega
  rcases h2 with h | h <;> simp [rBit, Nat.testBit_to_div_mod, h]

/-- On 0/1 bit lifts, the arithmetic XOR `pcW` is the 0/1 indicator of bit
disagreement. -/
lemma pcW_bits {k j : ℕ} (p x r : ℕ) (hj : j < k) :
    pcW p ((bitsL p k x).getD j 0) (rBit r j) =
      (((if x.testBit j = r.testBit j then 0 else 1 : ℕ)) : ZMod p) := by
  rw [bitsL_getD p x hj, rBit_eq]
  cases hx : x.testBit j <;> cases hr : r.testBit j <;>
    · simp [pcW]
      try ring

/-- The `sum(w[i+1:])` term is the prime-field cast of the disagreement
count. -/
lemma pcW_sum {k i : ℕ} (p x r : ℕ) :
    ∑ j in Finset.Ico (i + 1) k, pcW p ((bitsL p k x).getD j 0) (rBit r j) =
      ((wBitCount x r i k : ℕ) : ZMod p) := by
  rw [wBitCount, Nat.cast_sum]
  refine Finset.sum_congr rfl ?_
  intro j hj
  rw [Finset.mem_Ico] at hj
  rw [pcW_bits p x r hj.2]

/-- The disagreement count is bounded by the number of remaining positions. -/
lemma wBitCount_le (x r i k : ℕ) : wBitCount x r i k ≤ k - (i + 1) := by
  calc wBitCount x r i k ≤ ∑ _j in Finset.Ico (i + 1) k, 1 :=
        Finset.sum_le_sum (fun j _ => by split <;> omega)
    _ = k - (i + 1) := by simp

/-- The disagreement count vanishes exactly when all higher bits agree. -/
lemma wBitCount_zero_iff (x r i k : ℕ) :
    wBitCount x r i k = 0 ↔ ∀ j, i < j → j < k → x.testBit j = r.testBit j := by
  rw [wBitCount, Finset.sum_eq_zero_iff]
  constructor
  · intro h j h1 h2
    have hm := h j (Finset.mem_Ico.mpr ⟨by omega, h2⟩)
    by_contra hne
    rw [if_neg hne] at hm
    omega
  · intro h j hj
    rw [Finset.mem_Ico] at hj
    rw [if_pos (h j (by omega) hj.2)]

/-- Casts of naturals below `p` vanish in `ZMod p` only at zero. -/
lemma natCast_eq_zero_iff_small {p w : ℕ} [NeZero p] (hw : w < p) :
    ((w : ℕ) : ZMod p) = 0 ↔ w = 0 := by
  rw [ZMod.natCast_zmod_eq_zero_iff_dvd]
  exact ⟨fun hd => Nat.eq_zero_of_dvd_of_lt hd hw, fun h => by simp [h]⟩

/-- Zero characterization of `c[i]` when the sampled bit is 0: `c[i]`
vanishes exactly when bit `i` of `x` is 0, bit `i` of `r` is 1, and all
higher bits agree. -/
lemma pcC_zero_iff_f (p k x r i : ℕ) (hkp : k + 2 ≤ p) (hi : i < k) :
    (pcC p (bitsL p k x) r 0 i = 0 ↔
      x.testBit i = false ∧ r.testBit i = true ∧ wBitCount x r i k = 0) := by
  haveI : NeZero p := ⟨by omega⟩
  have hWle := wBitCount_le x r i k
  have hWp : wBitCount x r i k < p := by omega
  cases hxb : x.testBit i <;> cases hrb : r.testBit i
  · rw [pcC, bitsL_length, pcW_sum, bitsL_getD p x hi, rBit_eq, hxb, hrb]
    norm_num
    rw [show pcU p 0 (0 : ZMod p) (0 : ℕ) + 1 + ((wBitCount x r i k : ℕ) : ZMod p) =
        ((1 + wBitCount x r i k : ℕ) : ZMod p) from by push_cast; simp [pcU]]
    rw [natCast_eq_zero_iff_small (p := p) (by omega)]
    omega
  · rw [pcC, bitsL_length, pcW_sum, bitsL_getD p x hi, rBit_eq, hxb, hrb]
    norm_num
    rw [show pcU p 0 (0 : ZMod p) (1 : ℕ) + 1 + ((wBitCount x r i k : ℕ) : ZMod p) =
        ((wBitCount x r i k : ℕ) : ZMod p) from by simp [pcU]]
    rw [natCast_eq_zero_iff_small (p := p) hWp]
  · rw [pcC, bitsL_length, pcW_sum, bitsL_getD p x hi, rBit_eq, hxb, hrb]
    norm_num
    rw [show pcU p 0 (1 : ZMod p) (0 : ℕ) + 1 + ((wBitCount x r i k : ℕ) : ZMod p) =
        ((2 + wBitCount x r i k : ℕ) : ZMod p) from by push_cast; simp [pcU]; try ring]
    rw [natCast_eq_zero_iff_small (p := p) (by omega)]
    omega
  · rw [pcC, bitsL_length, pcW_sum, bitsL_getD p x hi, rBit_eq, hxb, hrb]
    norm_num
    rw [show pcU p 0 (1 : ZMod p) (1 : ℕ) + 1 + ((wBitCount x r i k : ℕ) : ZMod p) =
        ((1 + wBitCount x r i k : ℕ) : ZMod p) from by push_cast; simp [pcU]]
    rw [natCast_eq_zero_iff_small (p := p) (by omega)]
    omega

/-- Zero characterization of `c[i]` when the sampled bit is 1: roles of `x`
and `r` flip. -/
lemma pcC_zero_iff_t (p k x r i : ℕ) (hkp : k + 2 ≤ p) (hi : i < k) :
    (pcC p (bitsL p k x) r 1 i = 0 ↔
      x.testBit i = true ∧ r.testBit i = false ∧ wBitCount x r i k = 0) := by
  haveI : NeZero p := ⟨by omega⟩
  have hWle := wBitCount_le x r i k
  have hWp : wBitCount x r i k < p := by omega
  cases hxb : x.testBit i <;> cases hrb : r.testBit i
  · rw [pcC, bitsL_length, pcW_sum, bitsL_getD p x hi, rBit_eq, hxb, hrb]
    norm_num
    rw [show pcU p 1 (0 : ZMod p) (0 : ℕ) + 1 + ((wBitCount x r i k : ℕ) : ZMod p) =
        ((1 + wBitCount x r i k : ℕ) : ZMod p) from by push_cast; simp [pcU]]
    rw [natCast_eq_zero_iff_small (p := p) (by omega)]
    omega
  · rw [pcC, bitsL_length, pcW_sum, bitsL_getD p x hi, rBit_eq, hxb, hrb]
    norm_num
    rw [show pcU p 1 (0 : ZMod p) (1 : ℕ) + 1 + ((wBitCount x r i k : ℕ) : ZMod p) =
        ((2 + wBitCount x r i k : ℕ) : ZMod p) from by push_cast; simp [pcU]; try ring]
    rw [natCast_eq_zero_iff_small (p := p) (by omega)]
    omega
  · rw [pcC, bitsL_length, pcW_sum, bitsL_getD p x hi, rBit_eq, hxb, hrb]
    norm_num
    rw [show pcU p 1 (1 : ZMod p) (0 : ℕ) + 1 + ((wBitCount x r i k : ℕ) : ZMod p) =
        ((wBitCount x r i k : ℕ) : ZMod p) from by simp [pcU]; try ring]
    rw [natCast_eq_zero_iff_small (p := p) hWp]
  · rw [pcC, bitsL_length, pcW_sum, bitsL_getD p x hi, rBit_eq, hxb, hrb]
    norm_num
    rw [show pcU p 1 (1 : ZMod p) (1 : ℕ) + 1 + ((wBitCount x r i k : ℕ) : ZMod p) =
        ((1 + wBitCount x r i k : ℕ) : ZMod p) from by push_cast; simp [pcU]]
    rw [natCast_eq_zero_iff_small (p := p) (by omega)]
    omega

/-- Lexicographic characterization of `<` on `k`-bit naturals: `x < r` iff at
some position below `k` the bit of `x` is 0, that of `r` is 1, and all higher
bits agree. -/
lemma lt_iff_bits (k x r : ℕ) (hx : x < 2 ^ k) (hr : r < 2 ^ k) :
    x < r ↔ ∃ i, i < k ∧ x.testBit i = false ∧ r.testBit i = true ∧
      ∀ j, i < j → j < k → x.testBit j = r.testBit j := by
  constructor
  · intro hlt
    have hne : x ≠ r := Nat.ne_of_lt hlt
    have hd : x ^^^ r ≠ 0 := fun h0 => hne (Nat.xor_eq_zero.mp h0)
    obtain ⟨i, hi1, hi2⟩ := Nat.exists_most_significant_bit hd
    rw [Nat.testBit_xor] at hi1
    have heqj : ∀ j, i < j → x.testBit j = r.testBit j := by
      intro j hj
      have h := hi2 j hj
      rw [Nat.testBit_xor] at h
      cases hxj : x.testBit j <;> cases hrj : r.testBit j <;>
        simp [hxj, hrj] at h <;> rfl
    have hik : i < k := by
      by_contra hik
      push_neg at hik
      have h1 : x.testBit i = false :=
        Nat.testBit_eq_false_of_lt
          (lt_of_lt_of_le hx (Nat.pow_le_pow_right (by norm_num) hik))
      have h2 : r.testBit i = false :=
        Nat.testBit_eq_false_of_lt
          (lt_of_lt_of_le hr (Nat.pow_le_pow_right (by norm_num) hik))
      rw [h1, h2] at hi1
      simp at hi1
    cases hxi : x.testBit i
    · cases hri : r.testBit i
      · rw [hxi, hri] at hi1
        simp at hi1
      · exact ⟨i, hik, hxi, hri, fun j h1 _ => heqj j h1⟩
    · cases hri : r.testBit i
      · have hgt : r < x := Nat.lt_of_testBit i hri hxi (fun j hj => (heqj j hj).symm)
        omega
      · rw [hxi, hri] at hi1
        simp at hi1
  · rintro ⟨i, hik, hxi, hri, hj⟩
    refine Nat.lt_of_testBit i hxi hri ?_
    intro j hij
    by_cases hjk : j < k
    · exact hj j hij hjk
    · push_neg at hjk
      rw [Nat.testBit_eq_false_of_lt
          (lt_of_lt_of_le hx (Nat.pow_le_pow_right (by norm_num) hjk)),
        Nat.testBit_eq_false_of_lt
          (lt_of_lt_of_le hr (Nat.pow_le_pow_right (by norm_num) hjk))]

/-- The blinded product `d` vanishes exactly when some `c[i]` vanishes, for a
nonzero blinding factor over a prime field. -/
lemma pcD_zero_iff {p : ℕ} (hp : p.Prime) (xs : List (ZMod p)) (r : ℕ) (betaP m : ZMod p)
    (hm : m ≠ 0) :
    (pcD p xs r betaP m = 0 ↔ ∃ i ∈ Finset.range xs.length, pcC p xs r betaP i = 0) := by
  haveI : Fact p.Prime := ⟨hp⟩
  rw [pcD, mul_eq_zero]
  simp [hm, Finset.prod_eq_zero_iff]

/-- Central correctness of `private_compare` on faithful least-significant-first
bit sharings: the reconstructed output bit is 1 exactly when `x > r`, or
`x = r` with the sampled bit 0. -/
lemma private_compare_spec (p k x r : ℕ) (beta : Bool) (m : ZMod p)
    (hp : p.Prime) (hkp : k + 2 ≤ p) (hx : x < 2 ^ k) (hr : r < 2 ^ k) (hm : m ≠ 0) :
    private_compare p (bitsL p k x) r beta m =
      (decide (r < x) || (decide (x = r) && !beta)) := by
  have hplen : (bitsL p k x).length = k := bitsL_length p k x
  cases beta
  · have hchain : pcD p (bitsL p k x) r 0 m = 0 ↔ x < r := by
      rw [pcD_zero_iff hp _ _ _ _ hm, lt_iff_bits k x r hx hr]
      constructor
      · rintro ⟨i, hi, hzero⟩
        rw [Finset.mem_range, hplen] at hi
        obtain ⟨h1, h2, h3⟩ := (pcC_zero_iff_f p k x r i hkp hi).mp hzero
        exact ⟨i, hi, h1, h2, (wBitCount_zero_iff x r i k).mp h3⟩
      · rintro ⟨i, hik, h1, h2, h3⟩
        refine ⟨i, by rw [Finset.mem_range, hplen]; exact hik, ?_⟩
        exact (pcC_zero_iff_f p k x r i hkp hik).mpr
          ⟨h1, h2, (wBitCount_zero_iff x r i k).mpr h3⟩
    unfold private_compare
    rw [show (if (false : Bool) then (1 : ZMod p) else 0) = 0 from rfl, Bool.false_xor,
      Bool.not_false, Bool.and_true]
    have hdec : decide (pcD p (bitsL p k x) r 0 m ≠ 0) = decide (¬ x < r) :=
      decide_eq_decide.mpr (not_congr hchain)
    rw [hdec, Bool.eq_iff_iff]
    simp only [decide_eq_true_eq, Bool.or_eq_true]
    omega
  · have hchain : pcD p (bitsL p k x) r 1 m = 0 ↔ r < x := by
      rw [pcD_zero_iff hp _ _ _ _ hm, lt_iff_bits k r x hr hx]
      constructor
      · rintro ⟨i, hi, hzero⟩
        rw [Finset.mem_range, hplen] at hi
        obtain ⟨h1, h2, h3⟩ := (pcC_zero_iff_t p k x r i hkp hi).mp hzero
        exact ⟨i, hi, h2, h1,
          fun j ha hb => ((wBitCount_zero_iff x r i k).mp h3 j ha hb).symm⟩
      · rintro ⟨i, hik, h1, h2, h3⟩
        refine ⟨i, by rw [Finset.mem_range, hplen]; exact hik, ?_⟩
        exact (pcC_zero_iff_t p k x r i hkp hik).mpr
          ⟨h2, h1, (wBitCount_zero_iff x r i k).mpr (fun j ha hb => (h3 j ha hb).symm)⟩
    unfold private_compare
    rw [show (if (true : Bool) then (1 : ZMod p) else 0) = 1 from rfl, Bool.true_xor,
      Bool.not_true, Bool.and_false, Bool.or_false]
    have hdec : decide (pcD p (bitsL p k x) r 1 m ≠ 0) = decide (¬ r < x) :=
      decide_eq_decide.mpr (not_congr hchain)
    rw [hdec, decide_not, Bool.not_not]

/-- The carry test of `wrap2` on values below the ring size is the overflow
test of the sum. -/
lemma wrap2c_iff (N a b : ℕ) (hb : b < N) : wrap2c N a b = decide (N ≤ a + b) := by
  unfold wrap2c
  rw [decide_eq_decide]
  omega

/-- Quotient of a two-term sum of ring values by the ring size. -/
lemma carry2_div (N a b : ℕ) (ha : a < N) (hb : b < N) :
    (a + b) / N = if N ≤ a + b then 1 else 0 := by
  split
  · next h =>
    have h1 : 1 ≤ (a + b) / N := (Nat.one_le_div_iff (by omega)).mpr h
    have h2 : (a + b) / N < 2 := (Nat.div_lt_iff_lt_mul (by omega)).mpr (by omega)
    omega
  · next h => exact Nat.div_eq_of_lt (by omega)

/-- `wrap3c` computes the parity of the number of ring overflows of the
three-term sum. -/
lemma wrap3c_parity (N a b c : ℕ) (ha : a < N) (hb : b < N) (hc : c < N) :
    wrap3c N a b c = decide ((a + b + c) / N % 2 = 1) := by
  have hN : 0 < N := by omega
  unfold wrap3c
  rw [wrap2c_iff N a b hb, wrap2c_iff N ((a + b) % N) c hc]
  by_cases h1 : N ≤ a + b
  · have hmod : (a + b) % N = a + b - N := by
      rw [Nat.mod_eq_sub_mod h1, Nat.mod_eq_of_lt (by omega)]
    rw [hmod]
    by_cases h2 : N ≤ a + b - N + c
    · have hq : (a + b + c) / N = 2 := by
        have hlo : 2 ≤ (a + b + c) / N := (Nat.le_div_iff_mul_le hN).mpr (by omega)
        have hhi : (a + b + c) / N < 3 := (Nat.div_lt_iff_lt_mul hN).mpr (by omega)
        omega
      simp [h1, h2, hq]
    · have hq : (a + b + c) / N = 1 := by
        have hlo : 1 ≤ (a + b + c) / N := (Nat.one_le_div_iff hN).mpr (by omega)
        have hhi : (a + b + c) / N < 2 := (Nat.div_lt_iff_lt_mul hN).mpr (by omega)
        omega
      simp [h1, h2, hq]
  · have hmod : (a + b) % N = a + b := Nat.mod_eq_of_lt (by omega)
    rw [hmod]
    by_cases h2 : N ≤ a + b + c
    · have hq : (a + b + c) / N = 1 := by
        have hlo : 1 ≤ (a + b + c) / N := (Nat.one_le_div_iff hN).mpr (by omega)
        have hhi : (a + b + c) / N < 2 := (Nat.div_lt_iff_lt_mul hN).mpr (by omega)
        omega
      simp [h1, h2, hq]
    · have hq : (a + b + c) / N = 0 := Nat.div_eq_of_lt (by omega)
      simp [h1, h2, hq]

/-- XOR of parity bits is the parity of the sum. -/
lemma xor_parity (mm nn : ℕ) :
    Bool.xor (decide (mm % 2 = 1)) (decide (nn % 2 = 1)) = decide ((mm + nn) % 2 = 1) := by
  rcases Nat.mod_two_eq_zero_or_one mm with h1 | h1 <;>
    rcases Nat.mod_two_eq_zero_or_one nn with h2 | h2 <;>
      simp [Nat.add_mod, h1, h2]

/-- A `wrap2` carry as a parity bit of the component quotient. -/
lemma wrap2c_parity (N a b : ℕ) (ha : a < N) (hb : b < N) :
    wrap2c N a b = decide ((b + a) / N % 2 = 1) := by
  rw [wrap2c_iff N a b hb]
  rw [show (b + a) / N = if N ≤ b + a then 1 else 0 from carry2_div N b a hb ha]
  by_cases h : N ≤ a + b
  · rw [if_pos (by omega)]
    simp [h]
  · rw [if_neg (by omega)]
    simp [h]

/-- The most significant bit of a `k`-bit value tests `2^(k-1) ≤ a`. -/
lemma testBit_msb (k a : ℕ) (hk : 1 ≤ k) (ha : a < 2 ^ k) :
    a.testBit (k - 1) = decide (2 ^ (k - 1) ≤ a) := by
  rw [Nat.testBit_to_div_mod, decide_eq_decide]
  have hp : (0:ℕ) < 2 ^ (k - 1) := by positivity
  have hkk : (2:ℕ) ^ k = 2 ^ (k - 1) * 2 := by
    rw [← pow_succ]
    congr 1
    omega
  have ha2 : a < 2 ^ (k - 1) * 2 := by rw [← hkk]; exact ha
  by_cases h : 2 ^ (k - 1) ≤ a
  · have h1 : 1 ≤ a / 2 ^ (k - 1) := (Nat.one_le_div_iff hp).mpr h
    have h2 : a / 2 ^ (k - 1) < 2 := (Nat.div_lt_iff_lt_mul hp).mpr (by omega)
    have h3 : a / 2 ^ (k - 1) = 1 := by omega
    rw [h3]
    simp [h]
  · have h0 : a / 2 ^ (k - 1) = 0 := Nat.div_eq_of_lt (by omega)
    rw [h0]
    simp [h]

/-- Assembling the four parity bits of the wrap identity. -/
lemma parity_assemble (q1 q2 q3 wr t wx wa : ℕ)
    (h : wr + (q1 + q2 + q3) = wx + wa + t) :
    (q1 + (q2 + q3) + (wr + (t + wx))) % 2 = 1 ↔ wa % 2 = 1 := by omega

/-- Reduction of the private-compare output inside `wrap` to the carry bit of
`xv + av`, away from the two degenerate boundaries. -/
lemma eta_reduce (N rp xv av t : ℕ) (betaPC : Bool)
    (hav : av < N) (hsplit : xv + av = N * t + rp) (ht : t = 0 ∨ t = 1)
    (hedge : betaPC = false ∨ xv ≠ rp + 1) :
    (decide (rp + 1 < xv) || (decide (xv = rp + 1) && !betaPC)) = decide (t % 2 = 1) := by
  rcases ht with ht | ht <;> subst ht
  · have hge : xv ≤ rp := by omega
    rw [Bool.eq_iff_iff]
    simp only [Bool.or_eq_true, Bool.and_eq_true, decide_eq_true_eq]
    constructor
    · rintro (h | ⟨h, _⟩) <;> omega
    · intro h
      exact absurd h (by norm_num)
  · have hgt : rp < xv := by omega
    rcases hedge with hb | hxne
    · subst hb
      rw [Bool.eq_iff_iff]
      simp only [Bool.or_eq_true, Bool.and_eq_true, Bool.not_false, decide_eq_true_eq,
        eq_self_iff_true, and_true, Nat.one_mod, iff_true]
      omega
    · rw [Bool.eq_iff_iff]
      simp only [Bool.or_eq_true, Bool.and_eq_true, decide_eq_true_eq]
      constructor
      · intro _
        norm_num
      · intro _
        exact Or.inl (by omega)

/-- Central correctness of the wrap protocol: when the opened `r` value is not
`N - 1` (so `r + 1` does not wrap) and the comparison's sampled bit avoids the
`x = r + 1` boundary, the reconstructed wrap bit equals the parity of the
number of ring overflows of the raw component sum `a1 + a2 + a3`. -/
lemma wrap_parity (N p k a1 a2 a3 x1 x2 x3 : ℕ) (betaPC : Bool) (m : ZMod p)
    (hN : N = 2 ^ k) (hp : p.Prime) (hkp : k + 2 ≤ p) (hm : m ≠ 0)
    (ha1 : a1 < N) (ha2 : a2 < N) (ha3 : a3 < N)
    (hx1 : x1 < N) (hx2 : x2 < N) (hx3 : x3 < N)
    (hEdge1 : (rComp N x1 a1 + rComp N x2 a2 + rComp N x3 a3) % N ≠ N - 1)
    (hEdge2 : betaPC = false ∨
      (x1 + x2 + x3) % N ≠ (rComp N x1 a1 + rComp N x2 a2 + rComp N x3 a3) % N + 1) :
    wrap N p k a1 a2 a3 x1 x2 x3 betaPC m =
      decide ((a1 + a2 + a3) / N % 2 = 1) := by
  have hN0 : 0 < N := by omega
  simp only [wrap, rComp, wrap_rst_beta] at hEdge1 hEdge2 ⊢
  have hr1lt : (x1 + a1) % N < N := Nat.mod_lt _ hN0
  have hr2lt : (x2 + a2) % N < N := Nat.mod_lt _ hN0
  have hr3lt : (x3 + a3) % N < N := Nat.mod_lt _ hN0
  rw [wrap2c_parity N a1 x1 ha1 hx1, wrap2c_parity N a2 x2 ha2 hx2,
    wrap2c_parity N a3 x3 ha3 hx3,
    wrap3c_parity N _ _ _ hr1lt hr2lt hr3lt,
    wrap3c_parity N x1 x2 x3 hx1 hx2 hx3]
  have hrPlt : ((x1 + a1) % N + (x2 + a2) % N + (x3 + a3) % N) % N < N := Nat.mod_lt _ hN0
  have hrP1 : ((x1 + a1) % N + (x2 + a2) % N + (x3 + a3) % N) % N + 1 < N := by omega
  rw [Nat.mod_eq_of_lt hrP1]
  have hxvlt : (x1 + x2 + x3) % N < N := Nat.mod_lt _ hN0
  have havlt : (a1 + a2 + a3) % N < N := Nat.mod_lt _ hN0
  have hxv2k : (x1 + x2 + x3) % N < 2 ^ k := by rw [← hN]; exact hxvlt
  have hrP2k : ((x1 + a1) % N + (x2 + a2) % N + (x3 + a3) % N) % N + 1 < 2 ^ k := by
    rw [← hN]; exact hrP1
  rw [private_compare_spec p k _ _ betaPC m hp hkp hxv2k hrP2k hm]
  -- reduce the comparison output to the carry bit of xv + av
  have hrr0 : ((x1 + a1) % N + (x2 + a2) % N + (x3 + a3) % N) % N =
      ((x1 + a1) + (x2 + a2) + (x3 + a3)) % N :=
    ((Nat.mod_modEq (x1 + a1) N).add (Nat.mod_modEq (x2 + a2) N)).add
      (Nat.mod_modEq (x3 + a3) N)
  have harr : (x1 + a1) + (x2 + a2) + (x3 + a3) = (x1 + x2 + x3) + (a1 + a2 + a3) := by
    omega
  have hrr2 : ((x1 + x2 + x3) + (a1 + a2 + a3)) % N =
      ((x1 + x2 + x3) % N + (a1 + a2 + a3) % N) % N :=
    (((Nat.mod_modEq (x1 + x2 + x3) N).add (Nat.mod_modEq (a1 + a2 + a3) N))).symm
  have hrP_eq : ((x1 + a1) % N + (x2 + a2) % N + (x3 + a3) % N) % N =
      ((x1 + x2 + x3) % N + (a1 + a2 + a3) % N) % N := by
    rw [hrr0, harr, hrr2]
  have hE5 : (x1 + x2 + x3) % N + (a1 + a2 + a3) % N =
      N * (((x1 + x2 + x3) % N + (a1 + a2 + a3) % N) / N) +
        ((x1 + a1) % N + (x2 + a2) % N + (x3 + a3) % N) % N := by
    rw [hrP_eq]
    exact (Nat.div_add_mod _ _).symm
  have ht01 : ((x1 + x2 + x3) % N + (a1 + a2 + a3) % N) / N = 0 ∨
      ((x1 + x2 + x3) % N + (a1 + a2 + a3) % N) / N = 1 := by
    rw [carry2_div N _ _ hxvlt havlt]
    split
    · right; rfl
    · left; rfl
  have heta := eta_reduce N (((x1 + a1) % N + (x2 + a2) % N + (x3 + a3) % N) % N)
    ((x1 + x2 + x3) % N) ((a1 + a2 + a3) % N)
    (((x1 + x2 + x3) % N + (a1 + a2 + a3) % N) / N) betaPC havlt
    (by rw [hrP_eq]; exact (Nat.div_add_mod _ _).symm) ht01 hEdge2
  rw [heta]
  -- the cancellation identity over the integers
  have e1 : x1 + a1 = N * ((x1 + a1) / N) + (x1 + a1) % N := (Nat.div_add_mod _ _).symm
  have e2 : x2 + a2 = N * ((x2 + a2) / N) + (x2 + a2) % N := (Nat.div_add_mod _ _).symm
  have e3 : x3 + a3 = N * ((x3 + a3) / N) + (x3 + a3) % N := (Nat.div_add_mod _ _).symm
  have er : (x1 + a1) % N + (x2 + a2) % N + (x3 + a3) % N =
      N * (((x1 + a1) % N + (x2 + a2) % N + (x3 + a3) % N) / N) +
        ((x1 + a1) % N + (x2 + a2) % N + (x3 + a3) % N) % N := (Nat.div_add_mod _ _).symm
  have ex : x1 + x2 + x3 = N * ((x1 + x2 + x3) / N) + (x1 + x2 + x3) % N :=
    (Nat.div_add_mod _ _).symm
  have ea : a1 + a2 + a3 = N * ((a1 + a2 + a3) / N) + (a1 + a2 + a3) % N :=
    (Nat.div_add_mod _ _).symm
  have hNz : (N : ℤ) ≠ 0 := by
    exact_mod_cast Nat.pos_iff_ne_zero.mp hN0
  have hbig : (N : ℤ) * ((((x1 + a1) % N + (x2 + a2) % N + (x3 + a3) % N) / N : ℕ) +
        (((x1 + a1) / N : ℕ) + ((x2 + a2) / N : ℕ) + ((x3 + a3) / N : ℕ))) =
      (N : ℤ) * (((x1 + x2 + x3) / N : ℕ) + ((a1 + a2 + a3) / N : ℕ) +
        (((x1 + x2 + x3) % N + (a1 + a2 + a3) % N) / N : ℕ)) := by
    have c1 : (x1 : ℤ) + a1 = N * ((x1 + a1) / N : ℕ) + ((x1 + a1) % N : ℕ) := by
      exact_mod_cast e1
    have c2 : (x2 : ℤ) + a2 = N * ((x2 + a2) / N : ℕ) + ((x2 + a2) % N : ℕ) := by
      exact_mod_cast e2
    have c3 : (x3 : ℤ) + a3 = N * ((x3 + a3) / N : ℕ) + ((x3 + a3) % N : ℕ) := by
      exact_mod_cast e3
    have cr : ((x1 + a1) % N : ℕ) + ((x2 + a2) % N : ℕ) + ((x3 + a3) % N : ℕ) =
        (N : ℤ) * (((x1 + a1) % N + (x2 + a2) % N + (x3 + a3) % N) / N : ℕ) +
          (((x1 + a1) % N + (x2 + a2) % N + (x3 + a3) % N) % N : ℕ) := by
      exact_mod_cast er
    have cx : (x1 : ℤ) + x2 + x3 = N * ((x1 + x2 + x3) / N : ℕ) +
        ((x1 + x2 + x3) % N : ℕ) := by
      exact_mod_cast ex
    have ca : (a1 : ℤ) + a2 + a3 = N * ((a1 + a2 + a3) / N : ℕ) +
        ((a1 + a2 + a3) % N : ℕ) := by
      exact_mod_cast ea
    have ct : ((x1 + x2 + x3) % N : ℕ) + ((a1 + a2 + a3) % N : ℕ) =
        (N : ℤ) * (((x1 + x2 + x3) % N + (a1 + a2 + a3) % N) / N : ℕ) +
          (((x1 + a1) % N + (x2 + a2) % N + (x3 + a3) % N) % N : ℕ) := by
      exact_mod_cast hE5
    linear_combination (-c1 - c2 - c3 - cr + cx + ca + ct)
  have hcancZ := mul_left_cancel₀ hNz hbig
  have hcanc : (((x1 + a1) % N + (x2 + a2) % N + (x3 + a3) % N) / N) +
      ((x1 + a1) / N + (x2 + a2) / N + (x3 + a3) / N) =
      (x1 + x2 + x3) / N + (a1 + a2 + a3) / N +
        ((x1 + x2 + x3) % N + (a1 + a2 + a3) % N) / N := by
    exact_mod_cast hcancZ
  rw [xor_parity, xor_parity, xor_parity, xor_parity, xor_parity, decide_eq_decide]
  exact parity_assemble _ _ _ _ _ _ _ hcanc

/-- C1: in a 3-party session, for every bilinear ring operator, each party's
locally computed cross-product sum plus its pairwise-zero-sharing mask yields
three 3-out-of-3 shares summing exactly to the product of the reconstructed
operands mod the ring. -/
theorem semi_honest_mul_reconstructs {n : ℕ} (op : ZMod n → ZMod n → ZMod n)
    (hopl : ∀ a b c : ZMod n, op (a + b) c = op a c + op b c)
    (hopr : ∀ a b c : ZMod n, op a (b + c) = op a b + op a c)
    (x0 x1 x2 y0 y1 y2 m0 m1 m2 : ZMod n)
    (hmask : m0 + m1 + m2 = 0) :
    compute_zvalue_and_add_mask op (partyShares x0 x1 x2 0) (partyShares y0 y1 y2 0) m0 +
      compute_zvalue_and_add_mask op (partyShares x0 x1 x2 1) (partyShares y0 y1 y2 1) m1 +
      compute_zvalue_and_add_mask op (partyShares x0 x1 x2 2) (partyShares y0 y1 y2 2) m2 =
      op (x0 + x1 + x2) (y0 + y1 + y2) := by
  have expand : op (x0 + x1 + x2) (y0 + y1 + y2) =
      op x0 y0 + op x0 y1 + op x0 y2 + op x1 y0 + op x1 y1 + op x1 y2 +
        op x2 y0 + op x2 y1 + op x2 y2 := by
    simp only [hopl, hopr]
    ring
  simp only [compute_zvalue_and_add_mask, multiplication_protocol, partyShares]
  rw [expand]
  linear_combination hmask

/-- C1 witness: a concrete instance in `ZMod 8` with elementwise
multiplication and the mask triple `(1, 2, 5)` summing to zero mod 8. -/
theorem semi_honest_mul_reconstructs_witness :
    compute_zvalue_and_add_mask (n := 8) (fun a b => a * b)
        (partyShares 1 2 3 0) (partyShares 4 5 6 0) 1 +
      compute_zvalue_and_add_mask (fun a b => a * b)
        (partyShares 1 2 3 1) (partyShares 4 5 6 1) 2 +
      compute_zvalue_and_add_mask (fun a b => a * b)
        (partyShares 1 2 3 2) (partyShares 4 5 6 2) 5 =
      (1 + 2 + 3 : ZMod 8) * (4 + 5 + 6) := by
  exact semi_honest_mul_reconstructs (fun a b => a * b)
    (by intro a b c; ring) (by intro a b c; ring) 1 2 3 4 5 6 1 2 5 (by decide)

/-- C2: the verification residual `z - (c + delta*a + eps*b + eps*delta)` is
formed with the public `eps*delta` term added only into rank 0's first share
slot and rank 2's second share slot (which hold the same physical component,
keeping the replication consistent; rank 1 adds nothing), and for every honest
Beaver triple `(a, b, c = a*b)` with `eps = x - a`, `delta = y - b` and
`z` reconstructing to `x*y`, the residual reconstructs to zero. -/
theorem triple_verification_residual {n : ℕ}
    (x y a0 a1 a2 b0 b1 b2 c0 c1 c2 z0 z1 z2 eps delta : ZMod n)
    (hc : c0 + c1 + c2 = (a0 + a1 + a2) * (b0 + b1 + b2))
    (hz : z0 + z1 + z2 = x * y)
    (heps : eps = x - (a0 + a1 + a2))
    (hdelta : delta = y - (b0 + b1 + b2)) :
    (triple_verification_all z0 z1 z2 a0 a1 a2 b0 b1 b2 c0 c1 c2 eps delta 0).sh0 =
        z0 - (c0 + a0 * delta + eps * b0 + eps * delta) ∧
      (triple_verification_all z0 z1 z2 a0 a1 a2 b0 b1 b2 c0 c1 c2 eps delta 1).sh0 =
        z1 - (c1 + a1 * delta + eps * b1) ∧
      (triple_verification_all z0 z1 z2 a0 a1 a2 b0 b1 b2 c0 c1 c2 eps delta 1).sh1 =
        z2 - (c2 + a2 * delta + eps * b2) ∧
      (triple_verification_all z0 z1 z2 a0 a1 a2 b0 b1 b2 c0 c1 c2 eps delta 2).sh1 =
        z0 - (c0 + a0 * delta + eps * b0 + eps * delta) ∧
      reconstruct3 (triple_verification_all z0 z1 z2 a0 a1 a2 b0 b1 b2 c0 c1 c2 eps delta) = 0 := by
  subst heps hdelta
  refine ⟨?_, ?_, ?_, ?_, ?_⟩
  · simp [triple_verification_all, triple_verification, partyShares]
  · simp [triple_verification_all, triple_verification, partyShares]
  · simp [triple_verification_all, triple_verification, partyShares]
  · simp [triple_verification_all, triple_verification, partyShares]
  · simp [reconstruct3, triple_verification_all, triple_verification, partyShares]
    linear_combination hz - hc

/-- C2 witness: concrete honest triple in `ZMod 8`: `a = 6`, `b = 2`,
`c = 12 = 4`, operands `x = 5`, `y = 3`, `z = 15 = 7`, `eps = -1 = 7`,
`delta = 1`; the reconstructed residual is zero. -/
theorem triple_verification_residual_witness :
    reconstruct3 (triple_verification_all (n := 8) 3 2 2 1 2 3 1 0 1 4 0 0 7 1) = 0 :=
  (triple_verification_residual 5 3 1 2 3 1 0 1 4 0 0 3 2 2 7 1
    (by decide) (by decide) (by decide) (by decide)).2.2.2.2

/-- C3: the malicious multiplication gate returns the semi-honest result
exactly when every element of the reconstructed verification residual is zero;
any nonzero element turns the whole call into an abort error, so no partial or
degraded result is ever delivered. -/
theorem mul_malicious_atomic {n : ℕ} {α : Type} (residual : List (ZMod n)) (result : α) :
    (mul_malicious_check residual result = Except.ok result ↔ ∀ v ∈ residual, v = 0) ∧
      (mul_malicious_check residual result =
          Except.error "Computation Aborted: Malicious behavior." ↔
        ¬ ∀ v ∈ residual, v = 0) ∧
      ∀ r : α, mul_malicious_check residual result = Except.ok r → r = result := by
  unfold mul_malicious_check
  by_cases h : residual.all (fun v => v = 0)
  · have hall : ∀ v ∈ residual, v = 0 := by simpa using h
    rw [if_pos h]
    exact ⟨⟨fun _ => hall, fun _ => rfl⟩,
      ⟨fun hcontr => Except.noConfusion hcontr, fun hcontr => absurd hall hcontr⟩,
      fun r hr => by cases hr; rfl⟩
  · have hnall : ¬ ∀ v ∈ residual, v = 0 := by simpa using h
    rw [if_neg h]
    exact ⟨⟨fun hcontr => Except.noConfusion hcontr, fun hall => absurd hall hnall⟩,
      ⟨fun _ => hnall, fun _ => rfl⟩, fun r hr => Except.noConfusion hr⟩

/-- C3 witness: an all-zero residual returns the result; a nonzero residual
aborts. -/
theorem mul_malicious_atomic_witness :
    mul_malicious_check (n := 8) [0, 0] (7 : ZMod 8) = Except.ok 7 ∧
      mul_malicious_check (n := 8) [1] (7 : ZMod 8) =
        Except.error "Computation Aborted: Malicious behavior." :=
  ⟨(mul_malicious_atomic [0, 0] 7).1.mpr (by decide),
    (mul_malicious_atomic [1] 7).2.1.mpr (by decide)⟩

/-- C7: oblivious selection reconstructs to `x` when the selector bit is 0 and
to `y` when it is 1, for every value of the internally sampled random bit `c`,
when the selector is a ring-2 share with a valid shape; a selector of any
other ring size, or one without a shape, raises an error. -/
theorem select_shares_correct {n : ℕ} (x y : ZMod n) (shape : List ℕ) (b c : Bool) :
    select_shares x y 2 (some shape) b c = Except.ok (if b then y else x) ∧
      (∀ r : ℕ, r ≠ 2 → ∀ sh : Option (List ℕ),
        select_shares x y r sh b c =
          Except.error ("Invalid " ++ toString r ++ " for selector bit,must be of ring size 2")) ∧
      select_shares x y 2 none b c =
        Except.error "The selector bit tensor must have a valid shape." := by
  refine ⟨?_, ?_, ?_⟩
  · cases b <;> cases c <;> simp [select_shares]
  · intro r hr sh
    simp [select_shares, hr]
  · simp [select_shares]

/-- C7 witness: concrete selection in `ZMod 8` with `b = 1`, `c = 0` returns
the second argument. -/
theorem select_shares_correct_witness :
    select_shares (n := 8) 3 5 2 (some [2, 2]) true false = Except.ok 5 :=
  (select_shares_correct 3 5 [2, 2] true false).1

/-- C8: the masking step regenerates the primitive batch at most once; it
regenerates exactly once precisely when the first attempt fails with an
exhausted store, in which case the single retry's outcome (success or failure)
is final and propagates; a first failure of any other kind propagates with no
regeneration. -/
theorem mask_retry_once {α : Type} (attempt : ℕ → Except PrimErr α) :
    (mul_malicious_masking attempt).2 ≤ 1 ∧
      (∀ v : α, attempt 0 = Except.ok v →
        mul_malicious_masking attempt = (Except.ok v, 0)) ∧
      (attempt 0 = Except.error PrimErr.emptyPrimitiveStore →
        mul_malicious_masking attempt = (attempt 1, 1)) ∧
      (∀ msg : String, attempt 0 = Except.error (PrimErr.other msg) →
        mul_malicious_masking attempt = (Except.error (PrimErr.other msg), 0)) := by
  unfold mul_malicious_masking
  rcases h : attempt 0 with e | v
  · cases e with
    | emptyPrimitiveStore =>
      exact ⟨le_refl 1,
        fun w hw => Except.noConfusion hw,
        fun _ => rfl,
        fun msg hc => by injection hc with hc2; exact PrimErr.noConfusion hc2⟩
    | other msg0 =>
      exact ⟨Nat.zero_le 1,
        fun w hw => Except.noConfusion hw,
        fun hc => by injection hc with hc2; exact PrimErr.noConfusion hc2,
        fun msg hc => by injection hc with hc2; injection hc2 with hc3; subst hc3; rfl⟩
  · exact ⟨Nat.zero_le 1,
      fun w hw => by injection hw with hw2; subst hw2; rfl,
      fun hc => Except.noConfusion hc,
      fun msg hc => Except.noConfusion hc⟩

/-- C8 witness: a first attempt failing with an exhausted store followed by a
successful retry yields the retry's result after exactly one regeneration. -/
theorem mask_retry_once_witness :
    mul_malicious_masking (fun i => if i = 0
        then (Except.error PrimErr.emptyPrimitiveStore : Except PrimErr ℕ)
        else Except.ok 42) =
      (Except.ok 42, 1) := by
  have h := (mask_retry_once (fun i => if i = 0
      then (Except.error PrimErr.emptyPrimitiveStore : Except PrimErr ℕ)
      else Except.ok 42)).2.2.1 rfl
  simpa using h

/-- C9: on the normal path division restores the original `(base, precision)`
configuration, but when any intermediate step raises, the restore lines are
skipped and both operands' shares are left with the forced `(1, 0)`
configuration: the original configuration is not restored on the failure exit
path, contradicting the claim.  Evaluated at a concrete failing input with
original configuration `(2, 16)`. -/
theorem division_config_bug :
    division_configFrame (γ := Unit) ⟨2, 16⟩ (fun _ => Except.ok ()) =
        (Except.ok (), ⟨2, 16⟩) ∧
      division_configFrame (γ := Unit) ⟨2, 16⟩
          (fun _ => Except.error "EmptyPrimitiveStore raised by ABY3.truncate") =
        (Except.error "EmptyPrimitiveStore raised by ABY3.truncate", ⟨1, 0⟩) ∧
      (⟨1, 0⟩ : ShareConfig) ≠ ⟨2, 16⟩ := by
  refine ⟨rfl, rfl, by decide⟩

/-- C10: `wrap2` and `wrap3` raise a `ValueError` whenever `a` or `b` is not a
numpy ndarray, and whenever any checked argument's dtype is of signed-integer
kind; on unsigned-integer ndarrays they never raise, `wrap2` returning the
elementwise carry `a > max_unsigned - b` and `wrap3` its XOR composition
`wrap2(a, b) ^ wrap2(a + b, c)`. -/
theorem wrap2_wrap3_validation (av bv cv : PyVal) (a b c : NDArray) :
    ((av = PyVal.notArray ∨ bv = PyVal.notArray) →
      wrap2 av bv = Except.error "Input value must be a numpy array for wrap2." ∧
        wrap3 av bv cv = Except.error "Input value must be a numpy array for wrap3.") ∧
      ((a.kind = NpKind.signedInt ∨ b.kind = NpKind.signedInt) →
        wrap2 (PyVal.arr a) (PyVal.arr b) =
          Except.error "Wrap2 works only for signed numbers.") ∧
      ((a.kind = NpKind.signedInt ∨ b.kind = NpKind.signedInt ∨ c.kind = NpKind.signedInt) →
        wrap3 (PyVal.arr a) (PyVal.arr b) (PyVal.arr c) =
          Except.error "Wrap3 works only for signed numbers.") ∧
      (a.kind = NpKind.unsignedInt → b.kind = NpKind.unsignedInt →
        c.kind = NpKind.unsignedInt →
        wrap2 (PyVal.arr a) (PyVal.arr b) =
            Except.ok (List.zipWith (fun x y => wrap2_elem a.maxVal x y) a.data b.data) ∧
          wrap3 (PyVal.arr a) (PyVal.arr b) (PyVal.arr c) =
            Except.ok (List.zipWith Bool.xor
              (List.zipWith (fun x y => wrap2_elem a.maxVal x y) a.data b.data)
              (List.zipWith (fun x y => wrap2_elem a.maxVal x y) (ndAdd a b).data c.data))) := by
  refine ⟨?_, ?_, ?_, ?_⟩
  · rintro (rfl | rfl)
    · exact ⟨rfl, rfl⟩
    · cases av with
      | arr a0 => exact ⟨rfl, rfl⟩
      | notArray => exact ⟨rfl, rfl⟩
  · intro h
    simp [wrap2, h]
  · intro h
    simp only [wrap3, if_pos h]
  · intro ha hb hc
    have hk : ¬ (a.kind = NpKind.signedInt ∨ b.kind = NpKind.signedInt) := by
      simp [ha, hb]
    have hk3 : ¬ (a.kind = NpKind.signedInt ∨ b.kind = NpKind.signedInt ∨
        c.kind = NpKind.signedInt) := by
      simp [ha, hb, hc]
    have hkadd : ¬ ((ndAdd a b).kind = NpKind.signedInt ∨ c.kind = NpKind.signedInt) := by
      simp [ndAdd, ha, hc]
    refine ⟨by simp [wrap2, hk], ?_⟩
    simp only [wrap3, if_neg hk3, wrap2, if_neg hk, if_neg hkadd]
    rfl

/-- C10 witness: concrete unsigned 8-bit arrays; `wrap2([200,7],[100,8])`
carries only in the first slot, and `wrap3` composes by XOR; non-arrays and
signed kinds raise. -/
theorem wrap2_wrap3_validation_witness :
    wrap2 (PyVal.arr ⟨NpKind.unsignedInt, 255, [200, 7]⟩)
        (PyVal.arr ⟨NpKind.unsignedInt, 255, [100, 8]⟩) = Except.ok [true, false] ∧
      wrap2 PyVal.notArray (PyVal.arr ⟨NpKind.unsignedInt, 255, [1]⟩) =
        Except.error "Input value must be a numpy array for wrap2." := by
  constructor
  · have h := ((wrap2_wrap3_validation (PyVal.arr ⟨NpKind.unsignedInt, 255, [200, 7]⟩)
      (PyVal.arr ⟨NpKind.unsignedInt, 255, [100, 8]⟩) PyVal.notArray
      ⟨NpKind.unsignedInt, 255, [200, 7]⟩ ⟨NpKind.unsignedInt, 255, [100, 8]⟩
      ⟨NpKind.unsignedInt, 255, []⟩).2.2.2 rfl rfl rfl).1
    rw [h]
    rfl
  · exact ((wrap2_wrap3_validation PyVal.notArray (PyVal.arr ⟨NpKind.unsignedInt, 255, [1]⟩)
      PyVal.notArray ⟨NpKind.unsignedInt, 255, []⟩ ⟨NpKind.unsignedInt, 255, []⟩
      ⟨NpKind.unsignedInt, 255, []⟩).1 (Or.inl rfl)).1

/-- The extracted most significant bit of a ring component is the parity of
the doubled component's quotient by the ring size. -/
lemma msb_parity (N k a : ℕ) (hN : N = 2 ^ k) (hk : 1 ≤ k) (ha : a < N) :
    a.testBit (k - 1) = decide (2 * a / N % 2 = 1) := by
  rw [testBit_msb k a hk (by rw [← hN]; exact ha)]
  have hd : 2 * a / N = if N ≤ 2 * a then 1 else 0 := by
    rw [two_mul]
    exact carry2_div N a a ha ha
  have hkk : N = 2 ^ (k - 1) * 2 := by
    rw [hN, ← pow_succ]
    congr 1
    omega
  by_cases h : 2 ^ (k - 1) ≤ a
  · have h2 : N ≤ 2 * a := by omega
    rw [hd, if_pos h2]
    simp [h]
  · have h2 : ¬ N ≤ 2 * a := by omega
    rw [hd, if_neg h2]
    simp [h]

/-- Assembling the parity bits of the dReLU identity. -/
lemma drelu_assemble (M1 M2 M3 wb wa mv : ℕ)
    (h : M1 + (M2 + M3) + wb = 2 * wa + mv) (hmv : mv ≤ 1) :
    (¬ ((M1 + (M2 + M3) + wb) % 2 = 1)) ↔ mv = 0 := by omega

/-- C4 counterexample: the claim fails as stated.  With a single bit and
`x = r = 1` (where most- and least-significant-first coincide) and the sampled
bit `beta = 1`, the protocol reconstructs 0 although `x ≥ r`; and with the two
bits of `x = 2` supplied most-significant-first (`[1, 0]`) against `r = 2`
with `beta = 0`, it reconstructs 0 although `x ≥ r`. -/
theorem private_compare_claim_false :
    private_compare 67 [(1 : ZMod 67)] 1 true 1 = false ∧
      private_compare 67 [(1 : ZMod 67), 0] 2 false 1 = false ∧
      1 ≥ 1 ∧ 2 ≥ 2 := by
  refine ⟨by decide, by decide, le_refl 1, le_refl 2⟩

/-- C4 (amended): for a `k`-bit `x` whose per-bit prime-field shares are given
least-significant-first (`x[i]` is bit `i`, as the pairing with `r >> i & 1`
requires), a public `r < 2^k`, a prime modulus `p ≥ k + 2` and a nonzero
blinding factor, `private_compare` reconstructs to 1 iff `x > r`, or `x = r`
and the sampled bit `beta` is 0; in particular it equals `x ≥ r` whenever
`beta = 0`, but at `x = r` with `beta = 1` it returns 0. -/
theorem private_compare_amended (p k x r : ℕ) (beta : Bool) (m : ZMod p)
    (hp : p.Prime) (hkp : k + 2 ≤ p) (hx : x < 2 ^ k) (hr : r < 2 ^ k) (hm : m ≠ 0) :
    private_compare p (bitsL p k x) r beta m =
      (decide (r < x) || (decide (x = r) && !beta)) :=
  private_compare_spec p k x r beta m hp hkp hx hr hm

/-- C4 witness: `x = 2`, `r = 1` over two bits in `Z_67` with `beta = 0`
reconstructs to 1. -/
theorem private_compare_amended_witness :
    private_compare 67 (bitsL 67 2 2) 1 false 1 =
      (decide (1 < 2) || (decide (2 = 1) && !false)) :=
  private_compare_amended 67 2 2 1 false 1 (by decide) (by decide) (by decide)
    (by decide) (by decide)

/-- C5 counterexample: the claim fails as stated.  For ring size `N = 8` with
raw components `a = (7, 7, 7)` and preprocessing randomness `x = (0, 0, 0)`,
the component sum `21` overflows the ring, yet `wrap` reconstructs to 0: the
sum wraps twice and the protocol computes the wrap-count parity, not the
overflow predicate. -/
theorem wrap_claim_false :
    wrap 8 67 3 7 7 7 0 0 0 false 1 = false ∧ 8 ≤ 7 + 7 + 7 := by
  refine ⟨by decide, by omega⟩

/-- C5 (amended): `wrap(a)` is computed as `beta ^ delta ^ eta ^ alpha` with
`delta = wrap3` of the opened components of `r = x + a`, `eta` the private
comparison of `x`'s prime-lifted bits against the opened `r + 1`, and `alpha`
the reshared `wrap3` of `x`'s components, and — provided the opened `r` is not
`N - 1` and the comparison's sampled bit avoids the `x = r + 1` boundary — it
reconstructs to the parity of the number of times the raw component sum of `a`
wraps the ring (1 iff the sum overflows exactly once, 0 if it overflows twice
or not at all). -/
theorem wrap_amended (N p k a1 a2 a3 x1 x2 x3 : ℕ) (betaPC : Bool) (m : ZMod p)
    (hN : N = 2 ^ k) (hp : p.Prime) (hkp : k + 2 ≤ p) (hm : m ≠ 0)
    (ha1 : a1 < N) (ha2 : a2 < N) (ha3 : a3 < N)
    (hx1 : x1 < N) (hx2 : x2 < N) (hx3 : x3 < N)
    (hEdge1 : (rComp N x1 a1 + rComp N x2 a2 + rComp N x3 a3) % N ≠ N - 1)
    (hEdge2 : betaPC = false ∨
      (x1 + x2 + x3) % N ≠ (rComp N x1 a1 + rComp N x2 a2 + rComp N x3 a3) % N + 1) :
    wrap N p k a1 a2 a3 x1 x2 x3 betaPC m =
      decide ((a1 + a2 + a3) / N % 2 = 1) :=
  wrap_parity N p k a1 a2 a3 x1 x2 x3 betaPC m hN hp hkp hm ha1 ha2 ha3 hx1 hx2 hx3
    hEdge1 hEdge2

/-- C5 witness: ring size 4, components `a = (3, 3, 0)` summing to 6 (one
wrap), randomness `x = (1, 1, 0)`: the protocol reconstructs 1. -/
theorem wrap_amended_witness :
    wrap 4 67 2 3 3 0 1 1 0 false 1 = decide ((3 + 3 + 0) / 4 % 2 = 1) :=
  wrap_amended 4 67 2 3 3 0 1 1 0 false 1 (by decide) (by decide) (by decide)
    (by decide) (by decide) (by decide) (by decide) (by decide) (by decide)
    (by decide) (by decide) (Or.inl rfl)

/-- C6 counterexample: the claim fails as stated.  For ring size `N = 8` with
the zero tensor shared as `(0, 0, 0)` and internal wrap randomness
`x = (7, 0, 0)`, the opened `r` inside `wrap` equals `N - 1 = 7`, so the
`r + 1` argument of the private comparison wraps to 0 and `drelu`
reconstructs 0, although the plaintext 0 is nonnegative. -/
theorem drelu_claim_false :
    drelu 8 67 3 0 0 0 7 0 0 false 1 = false ∧ (0 + 0 + 0) % 8 < 2 ^ 2 := by
  refine ⟨by decide, by decide⟩

/-- C6 (amended): `drelu(a) = msb(a) ^ wrap(2a) ^ 1`, and — provided the wrap
subprotocol's internal randomness avoids the two degenerate boundaries (the
opened `r` of `wrap(2a)` is not `N - 1`, and the comparison's sampled bit
avoids the `x = r + 1` boundary) — it reconstructs to 1 iff the plaintext of
`a` is below `2^(k-1)`, i.e. nonnegative under the signed interpretation of
the ring `N = 2^k`, including 0, the maximum positive and the maximum
negative values. -/
theorem drelu_amended (N p k a1 a2 a3 x1 x2 x3 : ℕ) (betaPC : Bool) (m : ZMod p)
    (hN : N = 2 ^ k) (hk : 1 ≤ k) (hp : p.Prime) (hkp : k + 2 ≤ p) (hm : m ≠ 0)
    (ha1 : a1 < N) (ha2 : a2 < N) (ha3 : a3 < N)
    (hx1 : x1 < N) (hx2 : x2 < N) (hx3 : x3 < N)
    (hEdge1 : (rComp N x1 (2 * a1 % N) + rComp N x2 (2 * a2 % N) +
      rComp N x3 (2 * a3 % N)) % N ≠ N - 1)
    (hEdge2 : betaPC = false ∨ (x1 + x2 + x3) % N ≠
      (rComp N x1 (2 * a1 % N) + rComp N x2 (2 * a2 % N) +
        rComp N x3 (2 * a3 % N)) % N + 1) :
    drelu N p k a1 a2 a3 x1 x2 x3 betaPC m =
      decide ((a1 + a2 + a3) % N < 2 ^ (k - 1)) := by
  have hN0 : 0 < N := by omega
  have hb1 : 2 * a1 % N < N := Nat.mod_lt _ hN0
  have hb2 : 2 * a2 % N < N := Nat.mod_lt _ hN0
  have hb3 : 2 * a3 % N < N := Nat.mod_lt _ hN0
  simp only [drelu]
  rw [wrap_parity N p k (2 * a1 % N) (2 * a2 % N) (2 * a3 % N) x1 x2 x3 betaPC m hN hp
    hkp hm hb1 hb2 hb3 hx1 hx2 hx3 hEdge1 hEdge2]
  rw [msb_parity N k a1 hN hk ha1, msb_parity N k a2 hN hk ha2,
    msb_parity N k a3 hN hk ha3]
  rw [xor_parity, xor_parity, xor_parity]
  rw [Bool.xor_true, ← decide_not, decide_eq_decide]
  have havlt : (a1 + a2 + a3) % N < N := Nat.mod_lt _ hN0
  have e1 : 2 * a1 = N * (2 * a1 / N) + 2 * a1 % N := (Nat.div_add_mod _ _).symm
  have e2 : 2 * a2 = N * (2 * a2 / N) + 2 * a2 % N := (Nat.div_add_mod _ _).symm
  have e3 : 2 * a3 = N * (2 * a3 / N) + 2 * a3 % N := (Nat.div_add_mod _ _).symm
  have eb : 2 * a1 % N + 2 * a2 % N + 2 * a3 % N =
      N * ((2 * a1 % N + 2 * a2 % N + 2 * a3 % N) / N) +
        (2 * a1 % N + 2 * a2 % N + 2 * a3 % N) % N := (Nat.div_add_mod _ _).symm
  have ea : a1 + a2 + a3 = N * ((a1 + a2 + a3) / N) + (a1 + a2 + a3) % N :=
    (Nat.div_add_mod _ _).symm
  have ebv : (2 * a1 % N + 2 * a2 % N + 2 * a3 % N) % N =
      (2 * ((a1 + a2 + a3) % N)) % N := by
    have h1 : (2 * a1 % N + 2 * a2 % N + 2 * a3 % N) % N =
        (2 * a1 + 2 * a2 + 2 * a3) % N :=
      ((Nat.mod_modEq (2 * a1) N).add (Nat.mod_modEq (2 * a2) N)).add
        (Nat.mod_modEq (2 * a3) N)
    have h2 : 2 * a1 + 2 * a2 + 2 * a3 = 2 * (a1 + a2 + a3) := by ring
    have h3 : (2 * ((a1 + a2 + a3) % N)) % N = (2 * (a1 + a2 + a3)) % N :=
      Nat.ModEq.mul_left 2 (Nat.mod_modEq (a1 + a2 + a3) N)
    rw [h1, h2, ← h3]
  have emv : 2 * ((a1 + a2 + a3) % N) =
      N * (2 * ((a1 + a2 + a3) % N) / N) + (2 * ((a1 + a2 + a3) % N)) % N :=
    (Nat.div_add_mod _ _).symm
  have hNz : (N : ℤ) ≠ 0 := by exact_mod_cast Nat.pos_iff_ne_zero.mp hN0
  have hbig : (N : ℤ) * ((2 * a1 / N : ℕ) + ((2 * a2 / N : ℕ) + (2 * a3 / N : ℕ)) +
        ((2 * a1 % N + 2 * a2 % N + 2 * a3 % N) / N : ℕ)) =
      (N : ℤ) * (2 * ((a1 + a2 + a3) / N : ℕ) + (2 * ((a1 + a2 + a3) % N) / N : ℕ)) := by
    have c1 : (2 : ℤ) * a1 = N * (2 * a1 / N : ℕ) + (2 * a1 % N : ℕ) := by
      exact_mod_cast e1
    have c2 : (2 : ℤ) * a2 = N * (2 * a2 / N : ℕ) + (2 * a2 % N : ℕ) := by
      exact_mod_cast e2
    have c3 : (2 : ℤ) * a3 = N * (2 * a3 / N : ℕ) + (2 * a3 % N : ℕ) := by
      exact_mod_cast e3
    have cb : ((2 * a1 % N : ℕ) : ℤ) + (2 * a2 % N : ℕ) + (2 * a3 % N : ℕ) =
        N * ((2 * a1 % N + 2 * a2 % N + 2 * a3 % N) / N : ℕ) +
          ((2 * a1 % N + 2 * a2 % N + 2 * a3 % N) % N : ℕ) := by
      exact_mod_cast eb
    have ca : (a1 : ℤ) + a2 + a3 = N * ((a1 + a2 + a3) / N : ℕ) +
        ((a1 + a2 + a3) % N : ℕ) := by
      exact_mod_cast ea
    have cbv : (((2 * a1 % N + 2 * a2 % N + 2 * a3 % N) % N : ℕ) : ℤ) =
        ((2 * ((a1 + a2 + a3) % N)) % N : ℕ) := by
      exact_mod_cast ebv
    have cmv : (2 : ℤ) * ((a1 + a2 + a3) % N : ℕ) =
        N * (2 * ((a1 + a2 + a3) % N) / N : ℕ) +
          ((2 * ((a1 + a2 + a3) % N)) % N : ℕ) := by
      exact_mod_cast emv
    linear_combination (-c1 - c2 - c3 - cb + 2 * ca + cmv - cbv)
  have hcancZ := mul_left_cancel₀ hNz hbig
  have hcanc : 2 * a1 / N + (2 * a2 / N + 2 * a3 / N) +
      (2 * a1 % N + 2 * a2 % N + 2 * a3 % N) / N =
      2 * ((a1 + a2 + a3) / N) + 2 * ((a1 + a2 + a3) % N) / N := by
    exact_mod_cast hcancZ
  have hmv : 2 * ((a1 + a2 + a3) % N) / N =
      if N ≤ 2 * ((a1 + a2 + a3) % N) then 1 else 0 := by
    rw [two_mul]
    exact carry2_div N _ _ havlt havlt
  have hmvle : 2 * ((a1 + a2 + a3) % N) / N ≤ 1 := by
    rw [hmv]
    split <;> omega
  have hiff1 := drelu_assemble (2 * a1 / N) (2 * a2 / N) (2 * a3 / N)
    ((2 * a1 % N + 2 * a2 % N + 2 * a3 % N) / N) ((a1 + a2 + a3) / N)
    (2 * ((a1 + a2 + a3) % N) / N) hcanc hmvle
  refine hiff1.trans ?_
  have hkk : N = 2 ^ (k - 1) * 2 := by
    rw [hN, ← pow_succ]
    congr 1
    omega
  rw [hmv]
  by_cases h : N ≤ 2 * ((a1 + a2 + a3) % N)
  · rw [if_pos h]
    norm_num
    omega
  · rw [if_neg h]
    norm_num
    omega

/-- C6 witness: ring size 4 (`k = 2`), plaintext 1 shared as `(1, 0, 0)` with
wrap randomness `(0, 0, 0)`: dReLU reconstructs 1. -/
theorem drelu_amended_witness :
    drelu 4 67 2 1 0 0 0 0 0 false 1 = decide ((1 + 0 + 0) % 4 < 2 ^ (2 - 1)) :=
  drelu_amended 4 67 2 1 0 0 0 0 0 false 1 (by decide) (by decide) (by decide)
    (by decide) (by decide) (by decide) (by decide) (by decide) (by decide)
    (by decide) (by decide) (by decide) (Or.inl rfl)

end Falcon
